import Mathlib

/-!
Verification of the path-tracer core (SimpsonGSD/path-tracer).

Shallow embedding notes: `f64` values are modelled as exact rationals (`ℚ`);
every arithmetic expression is translated literally from the Rust source.
The one place the source takes a square root (`Vec3::length`, used by
`Vec3::new_unit_vector` on the sky-miss path of `color`) is modelled with
`Rat.sqrt`, which agrees with the source exactly on perfect squares — all
concrete inputs evaluated below have unit-length directions.  Panicking
control flow (`unreachable!()`, a panic unwinding out of a job's `run()`)
is modelled with `Except`/`Option`.  Randomness (`random::rand()`) is
modelled by passing the drawn value as an explicit argument.
-/

/-- `Vec3` from src/math/vec3.rs: three f64 components, modelled as `ℚ`. -/
structure Vec3 where
  x : ℚ
  y : ℚ
  z : ℚ
deriving DecidableEq, Repr

namespace Vec3

/-- `Vec3::new`. -/
def new (x y z : ℚ) : Vec3 := ⟨x, y, z⟩

/-- `Vec3::from_float`. -/
def fromFloat (f : ℚ) : Vec3 := ⟨f, f, f⟩

/-- `Vec3::new_zero_vector`. -/
def newZeroVector : Vec3 := new 0 0 0

/-- `Vec3::squared_length`. -/
def squaredLength (v : Vec3) : ℚ := v.x * v.x + v.y * v.y + v.z * v.z

/-- `Vec3::length` = `squared_length().sqrt()`; `Rat.sqrt` is exact on
perfect squares, which covers every concrete use below. -/
def length (v : Vec3) : ℚ := Rat.sqrt v.squaredLength

/-- `Vec3::add_vec` (componentwise). -/
def addVec (a b : Vec3) : Vec3 := ⟨a.x + b.x, a.y + b.y, a.z + b.z⟩

/-- `Vec3::sub_vec` (componentwise). -/
def subVec (a b : Vec3) : Vec3 := ⟨a.x - b.x, a.y - b.y, a.z - b.z⟩

/-- `Vec3::mul_vec` (componentwise). -/
def mulVec (a b : Vec3) : Vec3 := ⟨a.x * b.x, a.y * b.y, a.z * b.z⟩

/-- `Vec3::mul_float`. -/
def mulFloat (a : Vec3) (f : ℚ) : Vec3 := ⟨a.x * f, a.y * f, a.z * f⟩

/-- `Vec3::div_float`. -/
def divFloat (a : Vec3) (f : ℚ) : Vec3 := ⟨a.x / f, a.y / f, a.z / f⟩

/-- `Vec3::new_unit_vector` = `v.div_float(v.length())`. -/
def newUnitVector (v : Vec3) : Vec3 := v.divFloat v.length

/-- `ops::Neg for Vec3`. -/
def neg (v : Vec3) : Vec3 := ⟨-v.x, -v.y, -v.z⟩

/-- `Vec3::Index` by axis 0/1/2 (`x`,`y`,`z`). -/
def nth (v : Vec3) (i : ℕ) : ℚ :=
  match i with
  | 0 => v.x
  | 1 => v.y
  | _ => v.z

end Vec3

instance : Add Vec3 := ⟨Vec3.addVec⟩

instance : Sub Vec3 := ⟨Vec3.subVec⟩

instance : Mul Vec3 := ⟨Vec3.mulVec⟩

instance : Neg Vec3 := ⟨Vec3.neg⟩

instance : HMul Vec3 ℚ Vec3 := ⟨Vec3.mulFloat⟩

instance : HMul ℚ Vec3 Vec3 := ⟨fun f v => v.mulFloat f⟩

/-- `vec3::dot` from src/math/vec3.rs. -/
def dot (a b : Vec3) : ℚ := a.x * b.x + a.y * b.y + a.z * b.z

/-- `lerp` from src/math/mod.rs: `a*(1.0-t) + b*t`. -/
def lerp (a b : Vec3) (t : ℚ) : Vec3 := a * (1 - t) + b * t

/-- `Ray` from src/math/ray.rs. -/
structure Ray where
  origin : Vec3
  direction : Vec3
  time : ℚ
deriving DecidableEq

/-- `ffmin` from src/math/aabb.rs: `if a < b {a} else {b}`. -/
def ffmin (a b : ℚ) : ℚ := if a < b then a else b

/-- `ffmax` from src/math/aabb.rs: `if a > b {a} else {b}`. -/
def ffmax (a b : ℚ) : ℚ := if a > b then a else b

/-- `AABB` from src/math/aabb.rs. -/
structure AABB where
  boxMin : Vec3
  boxMax : Vec3
deriving DecidableEq

namespace AABB

/-- One iteration of the slab loop in `AABB::hit`: given the running
`(tmin, tmax)` interval, narrow it along one axis, or fail (`none`) when
`tmax <= tmin`.  Translated literally; over `ℚ` a zero direction
component gives `inv_d = 0` (the total-field convention) rather than the
IEEE `±inf`, so callers below only ever evaluate this on rays with
nonzero direction components, where the two semantics agree exactly. -/
def slabAxis (mn mx o d : ℚ) (acc : ℚ × ℚ) : Option (ℚ × ℚ) :=
  let inv_d := 1 / d
  let t0 := (mn - o) * inv_d
  let t1 := (mx - o) * inv_d
  let t0' := if inv_d < 0 then t1 else t0
  let t1' := if inv_d < 0 then t0 else t1
  let tmin := if t0' > acc.1 then t0' else acc.1
  let tmax := if t1' < acc.2 then t1' else acc.2
  if tmax ≤ tmin then none else some (tmin, tmax)

/-- `AABB::hit`: the three-axis slab test with early exit. -/
def hit (b : AABB) (r : Ray) (tmin tmax : ℚ) : Bool :=
  match slabAxis b.boxMin.x b.boxMax.x r.origin.x r.direction.x (tmin, tmax) with
  | none => false
  | some acc1 =>
    match slabAxis b.boxMin.y b.boxMax.y r.origin.y r.direction.y acc1 with
    | none => false
    | some acc2 =>
      (slabAxis b.boxMin.z b.boxMax.z r.origin.z r.direction.z acc2).isSome

/-- `AABB::get_union`: componentwise `ffmin` of minima / `ffmax` of maxima. -/
def getUnion (box0 box1 : AABB) : AABB :=
  ⟨Vec3.new (ffmin box0.boxMin.x box1.boxMin.x)
            (ffmin box0.boxMin.y box1.boxMin.y)
            (ffmin box0.boxMin.z box1.boxMin.z),
   Vec3.new (ffmax box0.boxMax.x box1.boxMax.x)
            (ffmax box0.boxMax.y box1.boxMax.y)
            (ffmax box0.boxMax.z box1.boxMax.z)⟩

end AABB

/-- `round_down_to_closest_factor` from src/math/mod.rs, in exact (real)
arithmetic: `factor = factor_of / factor_to_round`, `fract = factor.fract()`
(for nonnegative values `x.fract() = x - ⌊x⌋`); if `fract == 0` return the
requested size, otherwise return
`max(factor_to_round - ⌊(1 - fract) * factor_to_round⌋, 1)`. -/
def roundDownToClosestFactor (factorToRound factorOf : ℕ) : ℤ :=
  let factor : ℚ := (factorOf : ℚ) / (factorToRound : ℚ)
  let fract : ℚ := factor - (⌊factor⌋ : ℚ)
  if fract = 0 then (factorToRound : ℤ)
  else
    let fract2 : ℚ := 1 - fract
    let factorInt : ℤ := (factorToRound : ℤ) - ⌊fract2 * (factorToRound : ℚ)⌋
    max factorInt 1

/-- `Config` from src/lib.rs. -/
structure Config where
  realtime : Bool
  maxDepth : ℤ
  spp : ℕ

/-- `Config::new()`: `realtime: true, max_depth: 10, spp: 1`. -/
def Config.new : Config := ⟨true, 10, 1⟩

/-- `ThreadPool::new` (src/jobs/mod.rs): `let num_cores =
(num_cpus::get()).max(1);` then the loop `for i in 0..num_cores` spawns one
`JobThread` per index and pushes its handle.  The number of spawned worker
threads, as a function of the reported core count. -/
def threadPoolSpawnCount (cores : ℕ) : ℕ :=
  (List.range (Nat.max cores 1)).length

/-- State of a `JobCounter` paired with an instrumentation count of how many
times `JobCounter::decrement` has run. -/
def decrementCounter (s : ℕ × ℕ) : ℕ × ℕ := (s.1 - 1, s.2 + 1)

/-- The job branch of `JobThread::run` (src/jobs/mod.rs lines 248-251):
`job_descriptor.run(); job_descriptor.job_counter.decrement();` — two
sequential statements.  A panic in `run()` unwinds out of the worker loop
before the `decrement()` statement executes, leaving the shared counter
state untouched; a normal return falls through to `decrement()`.  The
job's own `run` never touches the counter, so its behaviour is abstracted
to whether it returns or panics. -/
def jobThreadRunOne (runResult : Except Unit Unit) (s : ℕ × ℕ) : ℕ × ℕ :=
  match runResult with
  | Except.ok _ => decrementCounter s
  | Except.error _ => s

/-- The per-pixel accumulation counter update in
`TraceSceneBatchJob::trace` (src/trace.rs line 155):
`num_frames_per_pixel[i] += if num_frames_per_pixel[i] <= 1000 {1} else {0}`. -/
def numFramesStep (c : ℕ) : ℕ := c + (if c ≤ 1000 then 1 else 0)

/-- An abstract geometric primitive, as the BVH and `HitableList` see one
through the `Hitable` trait (src/hitable.rs): `bounding_box(t0,t1)` and a
`hit` that scans the primitive's ray-intersection parameters nearest-first
(sphere.rs tries the smaller quadratic root first, rect.rs has a single
candidate).  `hitTs r` lists every intersection parameter of the primitive
with ray `r`, in the order the primitive's `hit` tries them. -/
structure Prim where
  hitTs : Ray → List ℚ
  bbox : ℚ → ℚ → AABB

/-- A primitive's `hit(r, t_min, t_max)`: the first candidate parameter
strictly inside `(t_min, t_max)` (sphere.rs: `temp < t_max && temp > t_min`),
reduced to the hit record's `t` field. -/
def primHit (p : Prim) (r : Ray) (tmin tmax : ℚ) : Option ℚ :=
  (p.hitTs r).find? (fun t => decide (tmin < t) && decide (t < tmax))

/-- `HitableList::hit` (src/hitable.rs lines 45-56): scan every object,
shrinking `closest_so_far` (initially `t_max`) to each hit's `t`. -/
def listHit (list : List Prim) (r : Ray) (tmin tmax : ℚ) : Option ℚ :=
  list.foldl
    (fun acc p =>
      match primHit p r tmin (match acc with | some t => t | none => tmax) with
      | some t => some t
      | none => acc)
    none

/-- `HitableList::bounding_box` (src/hitable.rs lines 57-59): the body is
`unreachable!()`, an unconditional panic; modelled as producing no value. -/
def hitableListBoundingBox (_list : List Prim) (_t0 _t1 : ℚ) : Option AABB :=
  none

/-- The shape of a built `BvhNode` tree: interior nodes own two children and
a cached `AABB`; children are either further nodes or shared primitives. -/
inductive HTree where
  | prim (p : Prim)
  | node (left right : HTree) (box : AABB)

namespace HTree

/-- `Hitable::bounding_box` on a tree: a `BvhNode` returns its cached box,
a primitive its own box. -/
def boundingBox : HTree → ℚ → ℚ → AABB
  | .prim p, t0, t1 => p.bbox t0 t1
  | .node _ _ b, _, _ => b

/-- The primitives at the leaves of a tree, left to right. -/
def leaves : HTree → List Prim
  | .prim p => [p]
  | .node l r _ => l.leaves ++ r.leaves

end HTree

/-- `BvhNode::hit` (src/bvh.rs lines 74-102): prune on the cached box,
recurse left, tighten `t_max` to the left hit's `t` for the right child. -/
def bvhHit : HTree → Ray → ℚ → ℚ → Option ℚ
  | .prim p, r, tmin, tmax => primHit p r tmin tmax
  | .node l rt box, r, tmin, tmax =>
    if box.hit r tmin tmax then
      match bvhHit l r tmin tmax with
      | some tl =>
        match bvhHit rt r tmin tl with
        | some tr => some tr
        | none => some tl
      | none => bvhHit rt r tmin tmax
    else none

/-- The sort key of `BvhNode::from_list`: the chosen axis component of
`bounding_box(0.0, 0.0).min()`. -/
def bboxMinAxis (p : Prim) (axis : ℕ) : ℚ := ((p.bbox 0 0).boxMin).nth axis

/-- `BvhNode::from_list` (src/bvh.rs lines 13-69).  The random axis draw
`(random::rand() * 3.0).floor()` is abstracted into the `axes` argument
(one choice per recursive call); `sort_unstable_by` with the source's
`a < b → Less, else Greater` comparator is modelled by `mergeSort` on the
same key (any sort produces some permutation, which is all later proofs
use).  `fuel` bounds the recursion: the source recurses without a base
case for the empty list (it would overflow the stack), which surfaces
here as `none` when fuel runs out. -/
def fromList (axes : ℕ → ℕ) (t0 t1 : ℚ) : ℕ → List Prim → Option HTree
  | 0, _ => none
  | fuel + 1, list =>
    let axis := axes fuel
    let sorted := list.mergeSort (fun a b => decide (bboxMinAxis a axis - bboxMinAxis b axis < 0))
    match sorted with
    | [p] => some (.node (.prim p) (.prim p)
        (AABB.getUnion (p.bbox t0 t1) (p.bbox t0 t1)))
    | [p, q] => some (.node (.prim p) (.prim q)
        (AABB.getUnion (p.bbox t0 t1) (q.bbox t0 t1)))
    | other =>
      let half := other.length / 2
      match fromList axes t0 t1 fuel (other.take half),
            fromList axes t0 t1 fuel (other.drop half) with
      | some l, some r =>
        some (.node l r (AABB.getUnion (l.boundingBox t0 t1) (r.boundingBox t0 t1)))
      | _, _ => none

/-- All intersection parameters of a list of primitives with a ray. -/
def candTs (list : List Prim) (r : Ray) : List ℚ :=
  list.foldr (fun p acc => p.hitTs r ++ acc) []

/-- Some primitive below the tree intersects `r` strictly inside
`(tmin, tmax)`. -/
def hitsInRange (tr : HTree) (r : Ray) (tmin tmax : ℚ) : Prop :=
  ∃ t ∈ candTs tr.leaves r, tmin < t ∧ t < tmax

/-- The geometric soundness of the cached boxes along a ray: whenever a
primitive below a node intersects the ray inside an interval, the node's
slab test accepts that interval.  This is the property the renderer's
scene constructors establish by building each box to contain its
geometry; it is a hypothesis here because primitives are abstract. -/
def conservative (r : Ray) : HTree → Prop
  | .prim _ => True
  | .node l rt box =>
      (∀ tmin tmax, hitsInRange (.node l rt box) r tmin tmax →
        box.hit r tmin tmax = true)
      ∧ conservative r l ∧ conservative r rt

/-- `min` of a new candidate and an optional current minimum. -/
def minCombine (t : ℚ) : Option ℚ → ℚ
  | some u => min t u
  | none => t

/-- Reference function: the smallest element of `l` strictly inside
`(tmin, tmax)`, or `none`. -/
def minInRange (l : List ℚ) (tmin tmax : ℚ) : Option ℚ :=
  l.foldr
    (fun t acc =>
      if tmin < t ∧ t < tmax then some (minCombine t acc) else acc)
    none

/-- `std::f64::MAX`, exactly: `(2 - 2⁻⁵²) · 2¹⁰²³`. -/
def f64Max : ℚ := 2 ^ 1024 - 2 ^ 971

/-- What `color` (src/trace.rs) observes of a successful intersection: the
hit record fields it reads (`u`, `v`, `p`) together with the behaviour of
the material referenced by the record — `emitted(u, v, &p)` and the
outcome of `scatter(r, &hit_record)`, a `(scattered, attenuation)` pair or
`None`.  Material randomness is folded into the `scatter` function. -/
structure HitInfo where
  u : ℚ
  v : ℚ
  p : Vec3
  emitted : ℚ → ℚ → Vec3 → Vec3
  scatter : Ray → Option (Ray × Vec3)

/-- `color` from src/trace.rs lines 234-251, translated clause by clause.
`world` abstracts `world.hit(r, t_min, t_max)`; the source always calls it
with `0.001` and `f64::MAX`.  On a hit it checks the hardcoded guard
`depth < 100`, computes `emitted` (zero when `disable_emissive`), and on a
scatter returns `emitted + attenuation * color(scattered, depth+1, ...)`;
with no scatter, or at the depth cutoff, it returns the zero vector.  On
a miss it returns `lerp(white, sky, 0.5·(unit_dir.y + 1)) * sky_brightness`. -/
def color (world : Ray → ℚ → ℚ → Option HitInfo) (skyBrightness : ℚ)
    (disableEmissive : Bool) (r : Ray) (depth : ℤ) : Vec3 :=
  match world r (1 / 1000) f64Max with
  | some hitRecord =>
    if _h : depth < 100 then
      let emitted :=
        if !disableEmissive then hitRecord.emitted hitRecord.u hitRecord.v hitRecord.p
        else Vec3.fromFloat 0
      match hitRecord.scatter r with
      | some (scattered, attenuation) =>
        emitted + attenuation * color world skyBrightness disableEmissive scattered (depth + 1)
      | none => Vec3.newZeroVector
    else Vec3.newZeroVector
  | none =>
    let unitDir := Vec3.newUnitVector r.direction
    let t := (1 / 2 : ℚ) * (unitDir.y + 1)
    let white := Vec3.fromFloat 1
    let sky := Vec3.new (1 / 2) (7 / 10) 1
    lerp white sky t * skyBrightness
termination_by (100 - depth).toNat
decreasing_by simp_wf; omega

/-- Instrumentation of `color`'s control flow: the largest value the
`depth` argument takes anywhere in the call tree rooted at this call.
Branches exactly as `color` does: recursion happens iff the world hit,
`depth < 100` and the material scattered. -/
def colorMaxDepth (world : Ray → ℚ → ℚ → Option HitInfo) (r : Ray) (depth : ℤ) : ℤ :=
  match world r (1 / 1000) f64Max with
  | some hitRecord =>
    if _h : depth < 100 then
      match hitRecord.scatter r with
      | some (scattered, _) => max depth (colorMaxDepth world scattered (depth + 1))
      | none => depth
    else depth
  | none => depth
termination_by (100 - depth).toNat
decreasing_by simp_wf; omega

/-- `HitRecord` from src/hitable.rs, minus the material handle (material
behaviour is modelled separately). -/
structure HitRecord where
  t : ℚ
  u : ℚ
  v : ℚ
  p : Vec3
  normal : Vec3

/-- `DiffuseLight` from src/material.rs: holds a texture,
`texture.value(u, v, point)` modelled as a function. -/
structure DiffuseLight where
  texture : ℚ → ℚ → Vec3 → Vec3

/-- `DiffuseLight::emitted` (src/material.rs lines 325-331):
`if dot(&rec.normal, &ray.direction) < 0.0 { texture.value(u,v,point) }
else { Vec3::new_zero_vector() }`. -/
def DiffuseLight.emitted (dl : DiffuseLight) (ray : Ray) (rec : HitRecord)
    (u v : ℚ) (point : Vec3) : Vec3 :=
  if dot rec.normal ray.direction < 0 then dl.texture u v point
  else Vec3.newZeroVector

/-- A `PDF` trait object (src/material.rs): `value(direction)` as a
function; `generate()` consumes randomness internal to the concrete pdf,
abstracted to a fixed sample. -/
structure PDFfun where
  value : Vec3 → ℚ
  generate : Vec3

/-- `MixturePDF` (src/material.rs lines 411-421): stores the two pdfs
passed to `new` (`pdfs[0]`, `pdfs[1]`). -/
structure MixturePDF where
  pdf0 : PDFfun
  pdf1 : PDFfun

/-- `MixturePDF::value` (src/material.rs lines 424-426):
`0.5 * pdfs[0].value(direction) + 0.5 * pdfs[1].value(direction)`. -/
def MixturePDF.value (m : MixturePDF) (direction : Vec3) : ℚ :=
  (1 / 2) * m.pdf0.value direction + (1 / 2) * m.pdf1.value direction

/-- `MixturePDF::generate` (src/material.rs lines 427-433): draw
`random::rand()` (the `coin` argument) and sample `pdfs[0]` when it is
below `0.5`, `pdfs[1]` otherwise. -/
def MixturePDF.generate (m : MixturePDF) (coin : ℚ) : Vec3 :=
  if coin < 1 / 2 then m.pdf0.generate else m.pdf1.generate

/-- A world in which every ray misses (`world.hit` returns `None`). -/
def worldNone : Ray → ℚ → ℚ → Option HitInfo := fun _ _ _ => none

/-- A hit record whose material always scatters, passing the incoming ray
straight through with attenuation 1 (a worst case for recursion depth). -/
def hitAlways : HitInfo :=
  ⟨0, 0, Vec3.newZeroVector, fun _ _ _ => Vec3.newZeroVector,
   fun r => some (r, Vec3.fromFloat 1)⟩

/-- A world in which every ray hits `hitAlways`. -/
def worldAlways : Ray → ℚ → ℚ → Option HitInfo := fun _ _ _ => some hitAlways

/-- A concrete ray straight up: origin 0, direction (0,1,0) (unit length,
so `Rat.sqrt` is exact on it). -/
def rayUp : Ray := ⟨Vec3.newZeroVector, Vec3.new 0 1 0, 0⟩

/-- A concrete texture for the C6 witness. -/
def texSample : ℚ → ℚ → Vec3 → Vec3 := fun _ _ _ => Vec3.new 1 (1 / 2) (1 / 4)

/-- A concrete hit record whose normal faces the oncoming `rayUp`
(normal (0,-1,0), ray direction (0,1,0): dot = -1 < 0). -/
def recFront : HitRecord := ⟨1, 0, 0, Vec3.newZeroVector, Vec3.new 0 (-1) 0⟩

/-- A concrete box for the C1 witness: the cube [4,6]³. -/
def boxW : AABB := ⟨Vec3.new 4 4 4, Vec3.new 6 6 6⟩

/-- A concrete primitive for the C1 witness: one intersection at `t = 5`
along any ray, bounded by `boxW` (the witness ray pierces it at (5,5,5)). -/
def primW : Prim := ⟨fun _ => [5], fun _ _ => boxW⟩

/-- The diagonal witness ray: origin 0, direction (1,1,1). -/
def rayW : Ray := ⟨Vec3.newZeroVector, Vec3.new 1 1 1, 0⟩

/-- The tree `from_list` builds from the singleton `[primW]`: both
children alias the primitive, box = union of its box with itself. -/
def treeW : HTree := .node (.prim primW) (.prim primW) (AABB.getUnion boxW boxW)

theorem Vec3.add_def (a b : Vec3) : a + b = ⟨a.x + b.x, a.y + b.y, a.z + b.z⟩ := rfl

theorem Vec3.mulQ_def (a : Vec3) (f : ℚ) : a * f = ⟨a.x * f, a.y * f, a.z * f⟩ := rfl

theorem Vec3.mulV_def (a b : Vec3) : a * b = ⟨a.x * b.x, a.y * b.y, a.z * b.z⟩ := rfl

/-- Claim C9: `HitableList::bounding_box` panics (`unreachable!()`) for
every list and every time interval — it never produces a bounding box, so
a `HitableList` cannot serve where one is required. -/
theorem hitableList_boundingBox_always_panics
    (list : List Prim) (t0 t1 : ℚ) :
    hitableListBoundingBox list t0 t1 = none := rfl

/-- Claim C10: the per-pixel accumulation counter after `n` (non-skipped)
trace passes equals `min n 1001`: it increments only while `≤ 1000`, hence
saturates at 1001 and never exceeds it. -/
theorem numFramesPerPixel_saturates (n : ℕ) :
    numFramesStep^[n] 0 = min n 1001 := by
  induction n with
  | zero => simp
  | succ n ih =>
    rw [Function.iterate_succ_apply', ih, numFramesStep]
    split_ifs <;> omega

/-- Claim C5 counterexample: with 4 reported cores the pool spawns
`max(4, 1) = 4` worker threads, not `max(1, 4 - 1) = 3` as claimed. -/
theorem threadPoolSpawnCount_ne_cores_sub_one :
    threadPoolSpawnCount 4 ≠ Nat.max 1 (4 - 1) := by decide

/-- Claim C5 (amended): `ThreadPool::new` spawns `max(cores, 1)` worker
threads — one per reported core, with a floor of one. -/
theorem threadPoolSpawnCount_eq_max_cores_one (cores : ℕ) :
    threadPoolSpawnCount cores = Nat.max cores 1 := by
  simp [threadPoolSpawnCount]

/-- Claim C4: on the panic path the fence counter is decremented zero
times — `decrement()` sits sequentially after `run()` with no scope
guard, so a job whose `run()` panics never decrements (counter stays 1,
decrement count 0), while a completing job decrements exactly once. -/
theorem jobThread_panic_skips_decrement :
    jobThreadRunOne (Except.error ()) (1, 0) = (1, 0) ∧
    jobThreadRunOne (Except.ok ()) (1, 0) = (0, 1) := ⟨rfl, rfl⟩

/-- Claim C8: at `factor_to_round = 13`, `factor_of = 500` the helper
returns 6, and 6 does not divide 500 — the adjusted tile size does not
evenly divide the image, contradicting the claim (and the call site's
stated purpose). -/
theorem roundDownToClosestFactor_not_divisor :
    roundDownToClosestFactor 13 500 = 6 ∧ ¬ ((6 : ℤ) ∣ 500) := by
  constructor
  · norm_num [roundDownToClosestFactor]
  · decide

/-- Claim C6: `DiffuseLight::emitted` returns the texture's radiance
exactly on front-face incidence (`dot(normal, ray.direction) < 0`) and
the zero vector otherwise. -/
theorem diffuseLight_emitted_front_face (dl : DiffuseLight) (ray : Ray)
    (rec : HitRecord) (u v : ℚ) (point : Vec3) :
    (dot rec.normal ray.direction < 0 →
      dl.emitted ray rec u v point = dl.texture u v point) ∧
    (0 ≤ dot rec.normal ray.direction →
      dl.emitted ray rec u v point = Vec3.newZeroVector) := by
  constructor
  · intro h
    simp [DiffuseLight.emitted, h]
  · intro h
    simp [DiffuseLight.emitted, not_lt.mpr h]

/-- Witness for C6: a concrete front-face configuration in which the
texture's radiance is returned. -/
theorem diffuseLight_emitted_front_face_witness :
    (DiffuseLight.mk texSample).emitted rayUp recFront 0 0 Vec3.newZeroVector
      = texSample 0 0 Vec3.newZeroVector :=
  (diffuseLight_emitted_front_face (DiffuseLight.mk texSample) rayUp recFront 0 0
    Vec3.newZeroVector).1 (by norm_num [dot, recFront, rayUp, Vec3.new])

/-- Claim C7: `MixturePDF::value` is the fixed 50/50 average of the two
component densities, and in particular evaluates to that average on the
sample drawn by `generate` whatever coin `generate` used. -/
theorem mixturePDF_value_averages (p0 p1 : PDFfun) (d : Vec3) (coin : ℚ) :
    (MixturePDF.mk p0 p1).value d
        = (1 / 2) * p0.value d + (1 / 2) * p1.value d ∧
    (MixturePDF.mk p0 p1).value ((MixturePDF.mk p0 p1).generate coin)
        = (1 / 2) * p0.value ((MixturePDF.mk p0 p1).generate coin)
          + (1 / 2) * p1.value ((MixturePDF.mk p0 p1).generate coin) :=
  ⟨rfl, rfl⟩

/-- Claim C2 counterexample: a ray that misses every object does not get
zero radiance when `sky_brightness` is nonzero (it is user-adjustable at
runtime): with brightness 1 the miss branch returns the sky gradient
(0.5, 0.7, 1.0) for a straight-up ray. -/
theorem color_miss_nonzero_cex :
    color worldNone 1 false rayUp 0 ≠ Vec3.newZeroVector := by
  rw [color.eq_def]
  simp only [worldNone]
  intro h
  have hz := congrArg Vec3.z h
  simp [lerp, Vec3.add_def, Vec3.mulQ_def, Vec3.fromFloat, Vec3.new,
    Vec3.newZeroVector] at hz

/-- Claim C2 (amended): on a miss `color` returns the white-to-sky
gradient scaled by `sky_brightness`; with the startup default
`sky_brightness = 0` this is the zero vector. -/
theorem color_miss_sky_zero (world : Ray → ℚ → ℚ → Option HitInfo)
    (de : Bool) (r : Ray) (depth : ℤ)
    (hmiss : world r (1 / 1000) f64Max = none) :
    color world 0 de r depth = Vec3.newZeroVector := by
  rw [color.eq_def, hmiss]
  simp [lerp, Vec3.add_def, Vec3.mulQ_def, Vec3.fromFloat, Vec3.new,
    Vec3.newZeroVector]

/-- Witness for the amended C2: the all-miss world at a concrete ray. -/
theorem color_miss_sky_zero_witness :
    color worldNone 0 false rayUp 0 = Vec3.newZeroVector :=
  color_miss_sky_zero worldNone false rayUp 0 rfl

theorem colorMaxDepth_worldAlways (r : Ray) :
    ∀ (n : ℕ) (depth : ℤ), depth + (n : ℤ) = 100 →
      colorMaxDepth worldAlways r depth = 100 := by
  intro n
  induction n with
  | zero =>
    intro depth hd
    rw [colorMaxDepth.eq_def]
    simp only [worldAlways, hitAlways]
    rw [dif_neg (by omega)]
    omega
  | succ n ih =>
    intro depth hd
    rw [colorMaxDepth.eq_def]
    simp only [worldAlways, hitAlways]
    rw [dif_pos (show depth < 100 by omega)]
    rw [ih (depth + 1) (by omega)]
    exact max_eq_right (by omega)

/-- Claim C3 counterexample: `Config::new()` sets `max_depth = 10`, yet in
a world whose material always scatters, a `color` call chain starting at
depth 0 reaches depth 100 — at `depth = max_depth` the function still
calls itself, because the cutoff is the hardcoded `depth < 100`, not
`Config::max_depth`. -/
theorem color_recursion_ignores_config_max_depth_cex :
    Config.new.maxDepth = 10 ∧ colorMaxDepth worldAlways rayUp 0 = 100 :=
  ⟨rfl, colorMaxDepth_worldAlways rayUp 100 0 (by norm_num)⟩

theorem colorMaxDepth_le_aux :
    ∀ (n : ℕ) (world : Ray → ℚ → ℚ → Option HitInfo) (r : Ray) (depth : ℤ),
      (100 - depth).toNat ≤ n → colorMaxDepth world r depth ≤ max depth 100 := by
  intro n
  induction n with
  | zero =>
    intro world r depth hn
    rw [colorMaxDepth.eq_def]
    cases hw : world r (1 / 1000) f64Max with
    | none => simp
    | some hi =>
      simp only [hw]
      rw [dif_neg (by omega)]
      exact le_max_left _ _
  | succ n ih =>
    intro world r depth hn
    rw [colorMaxDepth.eq_def]
    cases hw : world r (1 / 1000) f64Max with
    | none => simp
    | some hi =>
      simp only [hw]
      by_cases hd : depth < 100
      · rw [dif_pos hd]
        cases hs : hi.scatter r with
        | none => exact le_max_left _ _
        | some pair =>
          have h2 := ih world pair.1 (depth + 1) (by omega)
          have h3 : colorMaxDepth world pair.1 (depth + 1) ≤ 100 := by
            have : max (depth + 1) 100 = 100 := max_eq_right (by omega)
            omega
          exact max_le (le_max_left _ _) (le_trans h3 (le_max_right _ _))
      · rw [dif_neg hd]
        exact le_max_left _ _

/-- Claim C3 (amended): the recursion of `color` is bounded by the
hardcoded constant 100 — starting from any depth, no call in the chain
sees a depth argument above `max(depth, 100)`; `Config::max_depth` is
never consulted. -/
theorem colorMaxDepth_le_hundred (world : Ray → ℚ → ℚ → Option HitInfo)
    (r : Ray) (depth : ℤ) :
    colorMaxDepth world r depth ≤ max depth 100 :=
  colorMaxDepth_le_aux (100 - depth).toNat world r depth (le_refl _)

theorem minCombine_none (t : ℚ) : minCombine t none = t := rfl

theorem minCombine_some (t u : ℚ) : minCombine t (some u) = min t u := rfl

theorem minCombine_le_left (t : ℚ) (m : Option ℚ) : minCombine t m ≤ t := by
  cases m with
  | none => exact le_refl t
  | some u => exact min_le_left t u

theorem minInRange_nil (a b : ℚ) : minInRange [] a b = none := rfl

theorem minInRange_cons (t : ℚ) (l : List ℚ) (a b : ℚ) :
    minInRange (t :: l) a b =
      if a < t ∧ t < b then some (minCombine t (minInRange l a b))
      else minInRange l a b := rfl

theorem minInRange_none_iff (l : List ℚ) (a b : ℚ) :
    minInRange l a b = none ↔ ∀ x ∈ l, ¬(a < x ∧ x < b) := by
  induction l with
  | nil => simp [minInRange_nil]
  | cons t l ih =>
    rw [minInRange_cons]
    split_ifs with ht
    · simp only [iff_false_intro (Option.some_ne_none _), false_iff]
      intro hall
      exact hall t (List.mem_cons_self _ _) ht
    · rw [ih]
      constructor
      · intro hall x hx
        rcases List.mem_cons.mp hx with rfl | hxl
        · exact ht
        · exact hall x hxl
      · intro hall x hx
        exact hall x (List.mem_cons_of_mem _ hx)

theorem minInRange_mem {l : List ℚ} {a b u : ℚ}
    (h : minInRange l a b = some u) : u ∈ l ∧ a < u ∧ u < b := by
  induction l generalizing u with
  | nil => simp [minInRange_nil] at h
  | cons t l ih =>
    rw [minInRange_cons] at h
    split_ifs at h with ht
    · injection h with h
      cases hm : minInRange l a b with
      | none =>
        rw [hm, minCombine_none] at h
        subst h
        exact ⟨List.mem_cons_self _ _, ht.1, ht.2⟩
      | some v =>
        rw [hm, minCombine_some] at h
        rcases ih hm with ⟨hv, hav, hvb⟩
        rcases min_cases t v with ⟨he, _⟩ | ⟨he, _⟩
        · rw [← h, he]; exact ⟨List.mem_cons_self _ _, ht.1, ht.2⟩
        · rw [← h, he]; exact ⟨List.mem_cons_of_mem _ hv, hav, hvb⟩
    · rcases ih h with ⟨hv, hav, hvb⟩
      exact ⟨List.mem_cons_of_mem _ hv, hav, hvb⟩

theorem minInRange_le {l : List ℚ} {a b u : ℚ}
    (h : minInRange l a b = some u) :
    ∀ x ∈ l, a < x → x < b → u ≤ x := by
  induction l generalizing u with
  | nil => simp [minInRange_nil] at h
  | cons t l ih =>
    intro x hx hax hxb
    rw [minInRange_cons] at h
    rcases List.mem_cons.mp hx with rfl | hxl
    · rw [if_pos ⟨hax, hxb⟩] at h
      injection h with h
      rw [← h]
      exact minCombine_le_left _ _
    · split_ifs at h with ht
      · injection h with h
        cases hm : minInRange l a b with
        | none =>
          exact absurd ⟨hax, hxb⟩ ((minInRange_none_iff l a b).mp hm x hxl)
        | some v =>
          rw [hm, minCombine_some] at h
          rw [← h]
          exact le_trans (min_le_right _ _) (ih hm x hxl hax hxb)
      · exact ih h x hxl hax hxb

theorem minInRange_eq_some_intro {l : List ℚ} {a b u : ℚ}
    (hu : u ∈ l) (ha : a < u) (hb : u < b)
    (hmin : ∀ x ∈ l, a < x → x < b → u ≤ x) :
    minInRange l a b = some u := by
  cases hm : minInRange l a b with
  | none => exact absurd ⟨ha, hb⟩ ((minInRange_none_iff l a b).mp hm u hu)
  | some v =>
    rcases minInRange_mem hm with ⟨hv, hav, hvb⟩
    have h1 := minInRange_le hm u hu ha hb
    have h2 := hmin v hv hav hvb
    rw [le_antisymm h1 h2]

theorem minInRange_append (l1 l2 : List ℚ) (a b : ℚ) :
    minInRange (l1 ++ l2) a b =
      match minInRange l1 a b with
      | some u => some (minCombine u (minInRange l2 a b))
      | none => minInRange l2 a b := by
  induction l1 with
  | nil => rw [List.nil_append, minInRange_nil]
  | cons t l ih =>
    rw [List.cons_append, minInRange_cons, minInRange_cons, ih]
    split_ifs with ht
    · cases h1 : minInRange l a b with
      | none =>
        cases h2 : minInRange l2 a b with
        | none => rfl
        | some v => rfl
      | some u =>
        cases h2 : minInRange l2 a b with
        | none => rfl
        | some v => simp [minCombine_some, min_assoc]
    · rfl

theorem minInRange_congr {l l' : List ℚ} (hmem : ∀ x, x ∈ l ↔ x ∈ l')
    (a b : ℚ) : minInRange l a b = minInRange l' a b := by
  cases h : minInRange l' a b with
  | none =>
    rw [minInRange_none_iff]
    intro x hx
    exact (minInRange_none_iff l' a b).mp h x ((hmem x).mp hx)
  | some u =>
    rcases minInRange_mem h with ⟨hu, hau, hub⟩
    exact minInRange_eq_some_intro ((hmem u).mpr hu) hau hub
      (fun x hx hax hxb => minInRange_le h x ((hmem x).mp hx) hax hxb)

theorem find?_sorted_eq_minInRange {l : List ℚ}
    (hs : List.Sorted (· ≤ ·) l) (a b : ℚ) :
    l.find? (fun t => decide (a < t) && decide (t < b)) = minInRange l a b := by
  induction l with
  | nil => rfl
  | cons t l ih =>
    obtain ⟨hle, hsl⟩ := List.sorted_cons.mp hs
    by_cases ht : a < t ∧ t < b
    · rw [List.find?_cons_of_pos _ (by simp [ht.1, ht.2]), minInRange_cons,
        if_pos ht]
      cases hm : minInRange l a b with
      | none => rfl
      | some u =>
        rcases minInRange_mem hm with ⟨hu, _, _⟩
        rw [minCombine_some, min_eq_left (hle u hu)]
    · rw [List.find?_cons_of_neg _ (by simpa using ht), minInRange_cons,
        if_neg ht]
      exact ih hsl

theorem primHit_eq_minInRange {p : Prim} {r : Ray}
    (hs : List.Sorted (· ≤ ·) (p.hitTs r)) (a b : ℚ) :
    primHit p r a b = minInRange (p.hitTs r) a b :=
  find?_sorted_eq_minInRange hs a b

theorem candTs_nil (r : Ray) : candTs [] r = [] := rfl

theorem candTs_cons (p : Prim) (ps : List Prim) (r : Ray) :
    candTs (p :: ps) r = p.hitTs r ++ candTs ps r := rfl

theorem candTs_append (ps qs : List Prim) (r : Ray) :
    candTs (ps ++ qs) r = candTs ps r ++ candTs qs r := by
  induction ps with
  | nil => rfl
  | cons p ps ih => rw [List.cons_append, candTs_cons, candTs_cons, ih,
      List.append_assoc]

theorem mem_candTs {x : ℚ} {ps : List Prim} {r : Ray} :
    x ∈ candTs ps r ↔ ∃ p ∈ ps, x ∈ p.hitTs r := by
  induction ps with
  | nil => simp [candTs_nil]
  | cons p ps ih => simp [candTs_cons, List.mem_append, ih]

theorem listHit_fold (r : Ray) (a b : ℚ) :
    ∀ list : List Prim, (∀ p ∈ list, List.Sorted (· ≤ ·) (p.hitTs r)) →
    ∀ acc : Option ℚ,
      List.foldl
        (fun acc p =>
          match primHit p r a (match acc with | some t => t | none => b) with
          | some t => some t
          | none => acc) acc list
      = match minInRange (candTs list r) a (acc.getD b) with
        | some m => some m
        | none => acc := by
  intro list
  induction list with
  | nil =>
    intro _ acc
    rw [List.foldl_nil, candTs_nil, minInRange_nil]
  | cons p ps ih =>
    intro hs acc
    have hsp := hs p (List.mem_cons_self _ _)
    have hsps : ∀ q ∈ ps, List.Sorted (· ≤ ·) (q.hitTs r) :=
      fun q hq => hs q (List.mem_cons_of_mem _ hq)
    rw [List.foldl_cons, candTs_cons, minInRange_append,
      ← primHit_eq_minInRange hsp]
    have hacc : (match acc with | some t => t | none => b) = acc.getD b := by
      cases acc <;> rfl
    rw [hacc]
    cases hp : primHit p r a (acc.getD b) with
    | some t =>
      rw [ih hsps (some t)]
      simp only [Option.getD_some]
      rcases minInRange_mem ((primHit_eq_minInRange hsp _ _).symm.trans hp)
        with ⟨htmem, hat, htv⟩
      cases hm : minInRange (candTs ps r) a t with
      | some m =>
        rcases minInRange_mem hm with ⟨hmmem, ham, hmt⟩
        cases hm2 : minInRange (candTs ps r) a (acc.getD b) with
        | none =>
          exact absurd ⟨ham, lt_trans hmt htv⟩
            ((minInRange_none_iff _ _ _).mp hm2 m hmmem)
        | some v =>
          rcases minInRange_mem hm2 with ⟨hvmem, hav, hvv⟩
          have hvm : v ≤ m := minInRange_le hm2 m hmmem ham (lt_trans hmt htv)
          have hmv : m ≤ v := by
            rcases lt_or_le v t with hvt | htv2
            · exact minInRange_le hm v hvmem hav hvt
            · exact le_trans (le_of_lt hmt) htv2
          show (some m : Option ℚ) = some (minCombine t (some v))
          rw [minCombine_some, le_antisymm hvm hmv,
            min_eq_right (le_of_lt hmt)]
      | none =>
        cases hm2 : minInRange (candTs ps r) a (acc.getD b) with
        | none =>
          show (some t : Option ℚ) = some (minCombine t none)
          rw [minCombine_none]
        | some v =>
          rcases minInRange_mem hm2 with ⟨hvmem, hav, hvv⟩
          have htv2 : t ≤ v := by
            rcases lt_or_le v t with hvt | h2
            · exact absurd ⟨hav, hvt⟩
                ((minInRange_none_iff _ _ _).mp hm v hvmem)
            · exact h2
          show (some t : Option ℚ) = some (minCombine t (some v))
          rw [minCombine_some, min_eq_left htv2]
    | none =>
      rw [ih hsps acc]

theorem listHit_eq_minInRange (list : List Prim) (r : Ray) (a b : ℚ)
    (hs : ∀ p ∈ list, List.Sorted (· ≤ ·) (p.hitTs r)) :
    listHit list r a b = minInRange (candTs list r) a b := by
  have h := listHit_fold r a b list hs none
  simp only [Option.getD_none] at h
  rw [listHit, h]
  cases hm : minInRange (candTs list r) a b with
  | none => rfl
  | some m => rfl

theorem bvhHit_eq_minInRange :
    ∀ (tr : HTree) (r : Ray) (a b : ℚ),
      (∀ p ∈ tr.leaves, List.Sorted (· ≤ ·) (p.hitTs r)) →
      conservative r tr →
      bvhHit tr r a b = minInRange (candTs tr.leaves r) a b := by
  intro tr
  induction tr with
  | prim p =>
    intro r a b hs _
    have hsp := hs p (List.mem_cons_self _ _)
    rw [show candTs (HTree.prim p).leaves r = p.hitTs r from by
      simp [HTree.leaves, candTs_cons, candTs_nil]]
    exact primHit_eq_minInRange hsp a b
  | node l rt box ihl ihr =>
    intro r a b hs hc
    obtain ⟨hbox, hcl, hcr⟩ := hc
    have hsl : ∀ p ∈ l.leaves, List.Sorted (· ≤ ·) (p.hitTs r) :=
      fun p hp => hs p (by simp only [HTree.leaves, List.mem_append]; exact Or.inl hp)
    have hsr : ∀ p ∈ rt.leaves, List.Sorted (· ≤ ·) (p.hitTs r) :=
      fun p hp => hs p (by simp only [HTree.leaves, List.mem_append]; exact Or.inr hp)
    have hleaves : candTs (HTree.node l rt box).leaves r
        = candTs l.leaves r ++ candTs rt.leaves r := by
      rw [HTree.leaves, candTs_append]
    rw [bvhHit]
    by_cases hb : box.hit r a b
    · rw [if_pos hb, ihl r a b hsl hcl]
      cases hml : minInRange (candTs l.leaves r) a b with
      | some tl =>
        rcases minInRange_mem hml with ⟨hlmem, hal, hlb⟩
        show (match bvhHit rt r a tl with
              | some tr2 => some tr2
              | none => some tl)
            = minInRange (candTs (HTree.node l rt box).leaves r) a b
        rw [ihr r a tl hsr hcr]
        cases hmr : minInRange (candTs rt.leaves r) a tl with
        | some tr2 =>
          rcases minInRange_mem hmr with ⟨hrmem, har, hrl⟩
          show (some tr2 : Option ℚ)
              = minInRange (candTs (HTree.node l rt box).leaves r) a b
          symm
          rw [hleaves]
          apply minInRange_eq_some_intro
          · exact List.mem_append_right _ hrmem
          · exact har
          · exact lt_trans hrl hlb
          · intro x hx hax hxb
            rcases List.mem_append.mp hx with hxl | hxr
            · exact le_trans (le_of_lt hrl) (minInRange_le hml x hxl hax hxb)
            · rcases lt_or_le x tl with hxtl | htlx
              · exact minInRange_le hmr x hxr hax hxtl
              · exact le_trans (le_of_lt hrl) htlx
        | none =>
          show (some tl : Option ℚ)
              = minInRange (candTs (HTree.node l rt box).leaves r) a b
          symm
          rw [hleaves]
          apply minInRange_eq_some_intro
          · exact List.mem_append_left _ hlmem
          · exact hal
          · exact hlb
          · intro x hx hax hxb
            rcases List.mem_append.mp hx with hxl | hxr
            · exact minInRange_le hml x hxl hax hxb
            · rcases lt_or_le x tl with hxtl | htlx
              · exact absurd ⟨hax, hxtl⟩
                  ((minInRange_none_iff _ _ _).mp hmr x hxr)
              · exact htlx
      | none =>
        show bvhHit rt r a b
            = minInRange (candTs (HTree.node l rt box).leaves r) a b
        rw [ihr r a b hsr hcr, hleaves, minInRange_append, hml]
    · rw [if_neg hb]
      symm
      rw [minInRange_none_iff]
      intro x hx hxr
      exact hb (hbox a b ⟨x, hx, hxr⟩)

theorem fromList_leaves_mem :
    ∀ (fuel : ℕ) (axes : ℕ → ℕ) (t0 t1 : ℚ) (list : List Prim) (tr : HTree),
      fromList axes t0 t1 fuel list = some tr →
      ∀ x, x ∈ tr.leaves ↔ x ∈ list := by
  intro fuel
  induction fuel with
  | zero =>
    intro axes t0 t1 list tr h
    exact absurd h (by rw [fromList]; exact Option.noConfusion)
  | succ fuel ih =>
    intro axes t0 t1 list tr h
    rw [fromList] at h
    have hperm : (list.mergeSort
        (fun a b => decide (bboxMinAxis a (axes fuel) - bboxMinAxis b (axes fuel) < 0))).Perm
        list := List.mergeSort_perm list _
    rcases hms : list.mergeSort
        (fun a b => decide (bboxMinAxis a (axes fuel) - bboxMinAxis b (axes fuel) < 0))
      with _ | ⟨p, _ | ⟨q, _ | ⟨w, rest⟩⟩⟩ <;> rw [hms] at hperm h
    · -- sorted = []: only possible when the list itself is empty; the
      -- split/recurse branch then runs on two empty halves
      have hnil : list = [] := hperm.symm.eq_nil
      subst hnil
      simp only [List.length_nil] at h
      cases h1 : fromList axes t0 t1 fuel (List.take (0 / 2) ([] : List Prim)) with
      | none => rw [h1] at h; exact absurd h (by exact Option.noConfusion)
      | some ltr =>
        cases h2 : fromList axes t0 t1 fuel (List.drop (0 / 2) ([] : List Prim)) with
        | none => rw [h1, h2] at h; exact absurd h (by exact Option.noConfusion)
        | some rtr =>
          rw [h1, h2] at h
          injection h with h
          subst h
          intro x
          have hl := ih axes t0 t1 _ _ h1 x
          have hr := ih axes t0 t1 _ _ h2 x
          simp only [List.take_nil, List.drop_nil] at hl hr
          simp [HTree.leaves, List.mem_append, hl, hr]
    · -- sorted = [p]
      injection h with h
      subst h
      intro x
      simp only [HTree.leaves, List.mem_append, List.mem_singleton,
        ← hperm.mem_iff, List.mem_singleton]
      tauto
    · -- sorted = [p, q]
      injection h with h
      subst h
      intro x
      simp only [HTree.leaves, List.mem_append, List.mem_singleton,
        ← hperm.mem_iff, List.mem_cons, List.mem_singleton, List.not_mem_nil]
      tauto
    · -- sorted = p :: q :: w :: rest: split at the midpoint and recurse
      simp only [List.length_cons] at h
      cases h1 : fromList axes t0 t1 fuel
          (List.take ((rest.length + 1 + 1 + 1) / 2) (p :: q :: w :: rest)) with
      | none => rw [h1] at h; exact absurd h (by exact Option.noConfusion)
      | some ltr =>
        cases h2 : fromList axes t0 t1 fuel
            (List.drop ((rest.length + 1 + 1 + 1) / 2) (p :: q :: w :: rest)) with
        | none => rw [h1, h2] at h; exact absurd h (by exact Option.noConfusion)
        | some rtr =>
          rw [h1, h2] at h
          injection h with h
          subst h
          intro x
          have hl := ih axes t0 t1 _ _ h1 x
          have hr := ih axes t0 t1 _ _ h2 x
          rw [show (HTree.node ltr rtr
                ((ltr.boundingBox t0 t1).getUnion (rtr.boundingBox t0 t1))).leaves
              = ltr.leaves ++ rtr.leaves from rfl,
            List.mem_append, hl, hr, ← List.mem_append,
            List.take_append_drop, hperm.mem_iff]

/-- Claim C1: on a BVH built by `BvhNode::from_list` from any list of
primitives, `BvhNode::hit` agrees exactly with `HitableList::hit` on the
same primitives — same hit/miss outcome and the same closest parametric
distance `t` — for every ray and interval.  Hypotheses: the build
returned a tree (the source recursion diverges only on the empty list),
each primitive's candidate list is sorted nearest-first (as sphere/rect
hit functions are), and the cached node boxes are conservative along the
ray (what the scene constructors guarantee by building each box to
contain its geometry). -/
theorem bvh_hit_eq_linear_hit (axes : ℕ → ℕ) (t0 t1 : ℚ) (fuel : ℕ)
    (list : List Prim) (tr : HTree) (r : Ray) (tmin tmax : ℚ)
    (hbuild : fromList axes t0 t1 fuel list = some tr)
    (hsorted : ∀ p ∈ list, List.Sorted (· ≤ ·) (p.hitTs r))
    (hcons : conservative r tr) :
    bvhHit tr r tmin tmax = listHit list r tmin tmax := by
  have hmem := fromList_leaves_mem fuel axes t0 t1 list tr hbuild
  have hsl : ∀ p ∈ tr.leaves, List.Sorted (· ≤ ·) (p.hitTs r) :=
    fun p hp => hsorted p ((hmem p).mp hp)
  rw [bvhHit_eq_minInRange tr r tmin tmax hsl hcons,
    listHit_eq_minInRange list r tmin tmax hsorted]
  apply minInRange_congr
  intro x
  rw [mem_candTs, mem_candTs]
  constructor
  · rintro ⟨p, hp, hx⟩
    exact ⟨p, (hmem p).mp hp, hx⟩
  · rintro ⟨p, hp, hx⟩
    exact ⟨p, (hmem p).mpr hp, hx⟩

theorem boxW_slab (u v : ℚ) (h1 : u < 5) (h2 : 5 < v) :
    AABB.slabAxis 4 6 0 1 (u, v)
      = some (if 4 > u then 4 else u, if 6 < v then 6 else v) ∧
    (if 4 > u then 4 else u) < 5 ∧ 5 < (if 6 < v then 6 else v) := by
  refine ⟨?_, ?_, ?_⟩
  · simp only [AABB.slabAxis]
    norm_num
    intro h
    exfalso
    split_ifs at h <;> linarith
  · split_ifs <;> linarith
  · split_ifs <;> linarith

theorem boxW_hit (tmin tmax : ℚ) (h1 : tmin < 5) (h2 : 5 < tmax) :
    AABB.hit boxW rayW tmin tmax = true := by
  obtain ⟨e1, a1, b1⟩ := boxW_slab tmin tmax h1 h2
  obtain ⟨e2, a2, b2⟩ := boxW_slab _ _ a1 b1
  obtain ⟨e3, _, _⟩ := boxW_slab _ _ a2 b2
  simp only [AABB.hit, boxW, rayW, Vec3.new, Vec3.newZeroVector, e1, e2, e3,
    Option.isSome_some]

theorem fromList_primW : fromList (fun _ => 0) 0 1 1 [primW] = some treeW := by
  rw [fromList, List.mergeSort_singleton]
  rfl

theorem conservative_treeW : conservative rayW treeW := by
  refine ⟨?_, trivial, trivial⟩
  intro tmin tmax hrange
  obtain ⟨t, htmem, hta, htb⟩ := hrange
  have ht5 : t = 5 := by
    simp only [treeW, HTree.leaves, candTs_append, candTs_cons, candTs_nil,
      primW, List.mem_append, List.mem_cons, List.not_mem_nil] at htmem
    tauto
  subst ht5
  have hbox : AABB.getUnion boxW boxW = boxW := by
    simp [AABB.getUnion, boxW, ffmin, ffmax, Vec3.new]
  rw [hbox]
  exact boxW_hit tmin tmax hta htb

/-- Witness for C1: the build, the equality and an actual hit at `t = 5`
on the concrete one-primitive scene. -/
theorem bvh_hit_eq_linear_hit_witness :
    bvhHit treeW rayW (1 / 1000) 100 = listHit [primW] rayW (1 / 1000) 100 ∧
    listHit [primW] rayW (1 / 1000) 100 = some 5 := by
  constructor
  · exact bvh_hit_eq_linear_hit (fun _ => 0) 0 1 1 [primW] treeW rayW
      (1 / 1000) 100 fromList_primW
      (by intro p hp
          simp only [List.mem_singleton] at hp
          subst hp
          simp [primW, List.sorted_singleton])
      conservative_treeW
  · rw [listHit]
    simp only [List.foldl_cons, List.foldl_nil, primHit, primW]
    norm_num
